import Mathlib

/-!
Verification of the diff repair and normalization engine from
`src/utilities.ts` (PatchPilot). Text is modelled as `List Char`
(the JS string value), and each exported function of the source is
translated into an executable Lean definition of the same name.
-/

namespace PatchPilot

/-- Whitespace recognized by the JS `String.prototype.trim`. -/
def isWS (c : Char) : Bool :=
  c = ' ' || c = '\t' || c = '\n' || c = '\r' ||
  c = '\x0b' || c = '\x0c' || c = '\xa0' ||
  c = '\u1680' || (0x2000 ≤ c.toNat && c.toNat ≤ 0x200a) ||
  c = '\u202f' || c = '\u205f' || c = '\u3000' ||
  c = '\u2028' || c = '\u2029' || c = '\ufeff'

/-- JS `s.trim()`: drop whitespace from both ends. -/
def trim (l : List Char) : List Char :=
  ((l.dropWhile isWS).reverse.dropWhile isWS).reverse

/-- All suffixes of a list, longest first (used to model substring search). -/
def tailsFrom : List Char → List (List Char)
  | [] => [[]]
  | c :: cs => (c :: cs) :: tailsFrom cs

/-- JS `t.includes(p)`: `p` occurs as a contiguous substring of `t`. -/
def containsSub (p t : List Char) : Bool :=
  (tailsFrom t).any (fun s => p.isPrefixOf s)

/-- Does the character `'\n'` occur in the list (JS `.includes('\n')` on a line)? -/
def hasNL (l : List Char) : Bool :=
  l.any (fun c => c == '\n')

/-- JS regex line terminators: the characters that `.` never matches and
that therefore make an anchored `^...$` pattern fail anywhere on the
input (`\n`, `\r`, U+2028, U+2029). -/
def isTermChar (c : Char) : Bool :=
  c == '\n' || c == '\r' || c == '\u2028' || c == '\u2029'

/-- Does the list contain a JS regex line terminator? -/
def hasTerm (l : List Char) : Bool :=
  l.any isTermChar

/-- JS `text.split('\n')`. -/
def splitLines : List Char → List (List Char)
  | [] => [[]]
  | c :: cs =>
    if c = '\n' then [] :: splitLines cs
    else
      match splitLines cs with
      | [] => [[c]]
      | l :: ls => (c :: l) :: ls

/-- JS `lines.join('\n')`. -/
def joinLines : List (List Char) → List Char
  | [] => []
  | [l] => l
  | l :: l' :: ls => l ++ '\n' :: joinLines (l' :: ls)

/-- Translation of `normalizeLineEndings` (utilities.ts line 21):
`text.replaceAll(/\r\n|\r/g, '\n')`. -/
def normalizeLineEndings : List Char → List Char
  | [] => []
  | '\r' :: '\n' :: rest => '\n' :: normalizeLineEndings rest
  | '\r' :: rest => '\n' :: normalizeLineEndings rest
  | c :: rest => c :: normalizeLineEndings rest

/-- Anchored test of the structural-line regex in `autoFixSpaces`
(utilities.ts line 38): the line starts with one of the recognized
alternatives. -/
def structuralTest (l : List Char) : Bool :=
  ("+".data).isPrefixOf l || ("-".data).isPrefixOf l || (" ".data).isPrefixOf l ||
  ("@".data).isPrefixOf l || ("diff ".data).isPrefixOf l || ("index ".data).isPrefixOf l ||
  ("---".data).isPrefixOf l || ("+++".data).isPrefixOf l || ("@@".data).isPrefixOf l ||
  ("new file".data).isPrefixOf l || ("deleted file".data).isPrefixOf l ||
  ("old mode".data).isPrefixOf l || ("new mode".data).isPrefixOf l ||
  ("similarity index".data).isPrefixOf l || ("copy ".data).isPrefixOf l ||
  ("rename ".data).isPrefixOf l || ("binary ".data).isPrefixOf l ||
  ("\\".data).isPrefixOf l

/-- Per-line body of `autoFixSpaces`: prepend a space to a line that is
non-blank and not recognized as structural. -/
def fixLine (l : List Char) : List Char :=
  if !(trim l).isEmpty && !structuralTest l then ' ' :: l else l

/-- Translation of `autoFixSpaces` (utilities.ts lines 31-44). -/
def autoFixSpaces (t : List Char) : List Char :=
  joinLines ((splitLines t).map fixLine)

/-- Leftmost match of the regex `/\+\+\+ b\/(.+)/` in `addMissingHeaders`
(utilities.ts line 55): scan for the literal `+++ b/` followed by at least
one non-newline character; the capture is the maximal non-newline run. -/
def matchPlusB : List Char → Option (List Char)
  | [] => none
  | c :: cs =>
    if ("+++ b/".data).isPrefixOf (c :: cs) then
      (fun cap => if cap.isEmpty then matchPlusB cs else some cap)
        (((c :: cs).drop 6).takeWhile (fun x => !isTermChar x))
    else matchPlusB cs

/-- Translation of `addMissingHeaders` (utilities.ts lines 51-76). -/
def addMissingHeaders (t : List Char) : List Char :=
  if ("diff ".data).isPrefixOf (trim t) then t
  else
    (fun filePath =>
      if !(containsSub ("--- ".data) t) && !(containsSub ("+++ ".data) t) then
        ("diff --git a/".data) ++ filePath ++ (" b/".data) ++ filePath ++
          ("\n--- a/".data) ++ filePath ++ ("\n+++ b/".data) ++ filePath ++
          ("\n".data) ++ t
      else if !(containsSub ("--- ".data) t) && containsSub ("+++ ".data) t then
        ("diff --git a/".data) ++ filePath ++ (" b/".data) ++ filePath ++
          ("\n--- a/".data) ++ filePath ++ ("\n".data) ++ t
      else t)
    ((matchPlusB t).getD ("unknown-file".data))

/-- Attempt to strip a literal string from the front of a line. -/
def dropLit (p l : List Char) : Option (List Char) :=
  if p.isPrefixOf l then some (l.drop p.length) else none

/-- Character for a single decimal digit `d < 10`. -/
def digitChar (d : Nat) : Char :=
  Char.ofNat (48 + d)

/-- Fuel-driven decimal printer: digits of `n` prepended to `acc`. -/
def natToCharsGo : Nat → Nat → List Char → List Char
  | 0, n, acc => digitChar (n % 10) :: acc
  | fuel + 1, n, acc =>
    if n < 10 then digitChar n :: acc
    else natToCharsGo fuel (n / 10) (digitChar (n % 10) :: acc)

/-- Decimal representation of a natural number, as the JS template
interpolation `${count}` produces it. -/
def natToChars (n : Nat) : List Char :=
  natToCharsGo n n []

/-- Captured fields of the lenient hunk-header regex
`/^@@ -(\d+)(?:,(\d+))? \+(\d+)(?:,(\d+))? @@(.*)$/`
(utilities.ts line 93), all kept verbatim as character lists. -/
structure HunkHeaderParts where
  oldStart : List Char
  oldCountTxt : Option (List Char)
  newStart : List Char
  newCountTxt : Option (List Char)
  trailing : List Char
deriving DecidableEq

/-- Optional `,(\d+)` group: consumed only when a comma followed by at
least one digit is present (otherwise the input is left untouched, as
regex backtracking would). -/
def parseOptCount (r : List Char) : Option (List Char) × List Char :=
  match r with
  | ',' :: r' =>
    if (r'.takeWhile Char.isDigit).isEmpty then (none, r)
    else (some (r'.takeWhile Char.isDigit), r'.dropWhile Char.isDigit)
  | _ => (none, r)

/-- Deterministic parse of the lenient hunk-header regex of
`adjustHunkHeaders`.  Greedy `\d+` groups take maximal digit runs; since
each group is followed by a required non-digit literal, no backtracking
can produce a different outcome.  The final `(.*)$` capture excludes the
JS line terminators (`.` never matches them and `$` anchors at the end of
the input), so a line containing any terminator fails to match. -/
def parseHunkHeader (l : List Char) : Option HunkHeaderParts :=
  match dropLit ("@@ -".data) l with
  | none => none
  | some r1 =>
    if (r1.takeWhile Char.isDigit).isEmpty then none
    else
      match parseOptCount (r1.dropWhile Char.isDigit) with
      | (oc, r3) =>
        match dropLit (" +".data) r3 with
        | none => none
        | some r4 =>
          if (r4.takeWhile Char.isDigit).isEmpty then none
          else
            match parseOptCount (r4.dropWhile Char.isDigit) with
            | (nc, r6) =>
              match dropLit (" @@".data) r6 with
              | none => none
              | some tr =>
                if hasTerm tr then none
                else some ⟨r1.takeWhile Char.isDigit, oc,
                           r4.takeWhile Char.isDigit, nc, tr⟩

/-- Lines at which the look-ahead of `adjustHunkHeaders` stops
(utilities.ts line 105). -/
def isStopLine (l : List Char) : Bool :=
  ("diff --git".data).isPrefixOf l || ("@@ ".data).isPrefixOf l

/-- Line begins with `-` (counted toward the old side). -/
def isDashLine (l : List Char) : Bool :=
  ("-".data).isPrefixOf l

/-- Line begins with `+` (counted toward the new side). -/
def isPlusLine (l : List Char) : Bool :=
  ("+".data).isPrefixOf l

/-- Line begins with a space (counted toward both sides). -/
def isSpaceLine (l : List Char) : Bool :=
  (" ".data).isPrefixOf l

/-- Look-ahead of `adjustHunkHeaders` (utilities.ts lines 100-119):
count old/new body lines until the next `diff --git` or `@@ ` line or
the end of the text; unrecognized lines count toward neither side. -/
def hunkCounts : List (List Char) → Nat × Nat
  | [] => (0, 0)
  | l :: ls =>
    if isStopLine l then (0, 0)
    else
      if isDashLine l then ((hunkCounts ls).1 + 1, (hunkCounts ls).2)
      else if isPlusLine l then ((hunkCounts ls).1, (hunkCounts ls).2 + 1)
      else if isSpaceLine l then ((hunkCounts ls).1 + 1, (hunkCounts ls).2 + 1)
      else hunkCounts ls

/-- One output line of `adjustHunkHeaders`: a recognized hunk header is
rebuilt with recalculated counts, every other line passes through. -/
def adjustLine (l : List Char) (rest : List (List Char)) : List Char :=
  match parseHunkHeader l with
  | none => l
  | some ph =>
    ("@@ -".data) ++ ph.oldStart ++ [','] ++ natToChars (hunkCounts rest).1 ++
      (" +".data) ++ ph.newStart ++ [','] ++ natToChars (hunkCounts rest).2 ++
      (" @@".data) ++ ph.trailing

/-- Index loop of `adjustHunkHeaders`: each line is transformed with the
list of lines that follow it as look-ahead context. -/
def adjustGo : List (List Char) → List (List Char)
  | [] => []
  | l :: ls => adjustLine l ls :: adjustGo ls

/-- Translation of `adjustHunkHeaders` (utilities.ts lines 84-132). -/
def adjustHunkHeaders (t : List Char) : List Char :=
  joinLines (adjustGo (splitLines t))

/-- Translation of `normalizeDiff` (utilities.ts lines 139-146). -/
def normalizeDiff (t : List Char) : List Char :=
  addMissingHeaders (autoFixSpaces (normalizeLineEndings t))

/-- Split at the last occurrence of the literal ` b/`, as the greedy
first group of `/^diff --git a\/(.*) b\/(.*)$/` forces. -/
def splitLastB : List Char → Option (List Char × List Char)
  | [] => none
  | c :: cs =>
    match splitLastB cs with
    | some (p, q) => some (c :: p, q)
    | none =>
      if (" b/".data).isPrefixOf (c :: cs) then some ([], (c :: cs).drop 3)
      else none

/-- Translation of `extractFileNamesFromHeader` (utilities.ts lines
153-164).  The external collaborator `sanitizePath` is taken as a
function parameter; `none` stands for the JS `undefined`. -/
def extractFileNamesFromHeader (sanitizePath : List Char → List Char)
    (l : List Char) : Option (List Char) × Option (List Char) :=
  if hasTerm l then (none, none)
  else
    match dropLit ("diff --git a/".data) l with
    | none => (none, none)
    | some r =>
      match splitLastB r with
      | none => (none, none)
      | some (o, n) => (some (sanitizePath o), some (sanitizePath n))

/-- Modelled from the spec: the header grammar `diff --git a/<old> b/<new>`
of the Header Field Extractor, as a single line (no JS line terminator
anywhere) with the literal ` b/` separating the two paths. -/
def gitHeaderGrammar (l : List Char) : Bool :=
  !hasTerm l && ("diff --git a/".data).isPrefixOf l &&
    containsSub (" b/".data) (l.drop 13)

/-- Match of the strict hunk-header regex `/@@ -\d+,\d+ \+\d+,\d+ @@/`
(utilities.ts line 182) anchored at the head of the list. -/
def strictHunkAt (l : List Char) : Bool :=
  match dropLit ("@@ -".data) l with
  | none => false
  | some r1 =>
    if (r1.takeWhile Char.isDigit).isEmpty then false
    else
      match r1.dropWhile Char.isDigit with
      | ',' :: r3 =>
        if (r3.takeWhile Char.isDigit).isEmpty then false
        else
          match dropLit (" +".data) (r3.dropWhile Char.isDigit) with
          | none => false
          | some r5 =>
            if (r5.takeWhile Char.isDigit).isEmpty then false
            else
              match r5.dropWhile Char.isDigit with
              | ',' :: r7 =>
                if (r7.takeWhile Char.isDigit).isEmpty then false
                else (" @@".data).isPrefixOf (r7.dropWhile Char.isDigit)
              | _ => false
      | _ => false

/-- JS `regex.test(text)` for the strict hunk-header regex: some suffix
of the text begins with a match. -/
def hasStrictHunkHeader (t : List Char) : Bool :=
  (tailsFrom t).any strictHunkAt

/-- Number of lines whose trimmed form begins with `+` or `-`
(utilities.ts lines 186-187). -/
def plusMinusCount (t : List Char) : Nat :=
  ((splitLines t).filter (fun l => isPlusLine (trim l) || isDashLine (trim l))).length

/-- Translation of `isUnifiedDiff` (utilities.ts lines 171-194). -/
def isUnifiedDiff (t : List Char) : Bool :=
  if t.isEmpty || (trim t).isEmpty then false
  else
    (containsSub ("diff --git".data) t || containsSub ("--- ".data) t ||
      containsSub ("+++ ".data) t) ||
    hasStrictHunkHeader t ||
    decide (2 ≤ plusMinusCount t)

/-! Basic lemmas about the string primitives. -/

theorem isPrefixOf_iff_append {p l : List Char} :
    p.isPrefixOf l = true ↔ ∃ s, l = p ++ s := by
  induction p generalizing l with
  | nil => simp [List.isPrefixOf]
  | cons a p ih =>
    cases l with
    | nil => simp [List.isPrefixOf]
    | cons b bs =>
      simp only [List.isPrefixOf, Bool.and_eq_true, beq_iff_eq, ih,
        List.cons_append, List.cons.injEq]
      constructor
      · rintro ⟨rfl, s, rfl⟩
        exact ⟨s, rfl, rfl⟩
      · rintro ⟨s, rfl, rfl⟩
        exact ⟨rfl, s, rfl⟩

theorem isPrefixOf_append (p s : List Char) : p.isPrefixOf (p ++ s) = true :=
  isPrefixOf_iff_append.mpr ⟨s, rfl⟩

theorem singleton_isPrefixOf_iff {c : Char} {l : List Char} :
    [c].isPrefixOf l = true ↔ ∃ t, l = c :: t := by
  rw [isPrefixOf_iff_append]
  simp

theorem containsSub_nil (p : List Char) :
    containsSub p [] = p.isPrefixOf [] := by
  simp [containsSub, tailsFrom]

theorem containsSub_cons (p : List Char) (c : Char) (cs : List Char) :
    containsSub p (c :: cs) = (p.isPrefixOf (c :: cs) || containsSub p cs) := by
  simp [containsSub, tailsFrom]

theorem matchPlusB_eq_none {t : List Char}
    (h : containsSub ("+++ ".data) t = false) : matchPlusB t = none := by
  induction t with
  | nil => rfl
  | cons c cs ih =>
    rw [containsSub_cons, Bool.or_eq_false_iff] at h
    rw [matchPlusB]
    have hpre : ("+++ b/".data).isPrefixOf (c :: cs) = false := by
      cases hp : ("+++ b/".data).isPrefixOf (c :: cs) with
      | false => rfl
      | true =>
        obtain ⟨s, hs⟩ := isPrefixOf_iff_append.mp hp
        have : ("+++ ".data).isPrefixOf (c :: cs) = true := by
          rw [hs]
          have : ("+++ b/".data) ++ s = ("+++ ".data) ++ ("b/".data ++ s) := by
            simp
          rw [this]
          exact isPrefixOf_append _ _
        rw [this] at h
        exact absurd h.1 (by simp)
    rw [hpre]
    simp only [Bool.false_eq_true, if_false]
    exact ih h.2

/-! Lemmas about trimming. -/

theorem dropWhile_append_eval (q : Char → Bool) (A B : List Char) :
    List.dropWhile q (A ++ B) =
      if A.all q then B.dropWhile q else A.dropWhile q ++ B := by
  induction A with
  | nil => simp
  | cons a A ih =>
    by_cases h : q a = true
    · simp [List.dropWhile_cons, h, ih]
    · simp [List.dropWhile_cons, h]

theorem dropWhile_eq_self_of_head {q : Char → Bool} {l : List Char}
    (h : ∀ c ∈ l, q c = false) : List.dropWhile q l = l := by
  cases l with
  | nil => rfl
  | cons a l =>
    rw [List.dropWhile_cons, h a (List.mem_cons_self a l)]
    simp

theorem trim_append_keeps_front {p : List Char} (s : List Char)
    (hne : p ≠ []) (hp : ∀ c ∈ p, isWS c = false) :
    p.isPrefixOf (trim (p ++ s)) = true := by
  unfold trim
  obtain ⟨a, p', rfl⟩ : ∃ a p', p = a :: p' := by
    cases p with
    | nil => exact absurd rfl hne
    | cons a p' => exact ⟨a, p', rfl⟩
  rw [List.cons_append, List.dropWhile_cons,
    hp a (List.mem_cons_self a p')]
  simp only [Bool.false_eq_true, if_false]
  rw [show (a :: (p' ++ s)).reverse = s.reverse ++ (a :: p').reverse by
    simp, dropWhile_append_eval]
  by_cases hall : s.reverse.all isWS = true
  · rw [if_pos hall,
      dropWhile_eq_self_of_head (fun c hc => hp c (by
        rw [← List.mem_reverse]; exact hc))]
    rw [List.reverse_reverse]
    have := isPrefixOf_append (a :: p') []
    rwa [List.append_nil] at this
  · rw [if_neg hall]
    rw [List.reverse_append, List.reverse_reverse]
    exact isPrefixOf_append _ _

theorem trim_ne_nil {t : List Char} {c : Char}
    (hc : c ∈ t) (hw : isWS c = false) : trim t ≠ [] := by
  unfold trim
  intro h
  have h1 : List.dropWhile isWS ((List.dropWhile isWS t).reverse) = [] := by
    have := congrArg List.reverse h
    rwa [List.reverse_reverse, List.reverse_nil] at this
  have h2 : ∀ x ∈ (List.dropWhile isWS t).reverse, isWS x = true := by
    rw [← List.dropWhile_eq_nil_iff]
    exact h1
  have h3 : c ∈ List.dropWhile isWS t ∨ c ∈ List.takeWhile isWS t := by
    have := List.takeWhile_append_dropWhile (p := isWS) (l := t)
    rw [← this] at hc
    exact (List.mem_append.mp hc).symm.imp id id
  cases h3 with
  | inl h3 =>
    have := h2 c (List.mem_reverse.mpr h3)
    rw [hw] at this
    exact absurd this (by simp)
  | inr h3 =>
    have := List.mem_takeWhile_imp h3
    rw [hw] at this
    exact absurd this (by simp)

theorem trim_eq_nil_of_all_ws {l : List Char}
    (h : ∀ c ∈ l, isWS c = true) : trim l = [] := by
  unfold trim
  rw [List.dropWhile_eq_nil_iff.mpr h]
  rfl

/-! Lemmas about line splitting and joining. -/

theorem splitLines_ne_nil (t : List Char) : splitLines t ≠ [] := by
  induction t with
  | nil => simp [splitLines]
  | cons c cs ih =>
    rw [splitLines]
    by_cases h : c = '\n'
    · simp [h]
    · rw [if_neg h]
      cases he : splitLines cs with
      | nil => simp
      | cons l ls => simp

theorem splitLines_cons_of_ne {c : Char} {cs l : List Char}
    {ls : List (List Char)} (h : ¬ c = '\n') (he : splitLines cs = l :: ls) :
    splitLines (c :: cs) = (c :: l) :: ls := by
  rw [splitLines, if_neg h, he]

theorem splitLines_noNL {a : List Char} (h : hasNL a = false) :
    splitLines a = [a] := by
  induction a with
  | nil => rfl
  | cons c cs ih =>
    rw [hasNL, List.any_cons, Bool.or_eq_false_iff] at h
    have hc : ¬ c = '\n' := by
      intro hc
      rw [hc] at h
      exact absurd h.1 (by simp)
    rw [splitLines_cons_of_ne hc (ih h.2)]

theorem splitLines_append_newline {a : List Char} (r : List Char)
    (h : hasNL a = false) :
    splitLines (a ++ '\n' :: r) = a :: splitLines r := by
  induction a with
  | nil =>
    rw [List.nil_append, splitLines]
    simp
  | cons c cs ih =>
    rw [hasNL, List.any_cons, Bool.or_eq_false_iff] at h
    have hc : ¬ c = '\n' := by
      intro hc
      rw [hc] at h
      exact absurd h.1 (by simp)
    rw [List.cons_append, splitLines_cons_of_ne hc (ih h.2)]

theorem mem_splitLines_noNL (t : List Char) :
    ∀ x ∈ splitLines t, hasNL x = false := by
  induction t with
  | nil =>
    intro x hx
    rw [splitLines] at hx
    simp at hx
    rw [hx, hasNL]
    rfl
  | cons c cs ih =>
    intro x hx
    rw [splitLines] at hx
    by_cases h : c = '\n'
    · rw [if_pos h] at hx
      cases hx with
      | head => rw [hasNL]; rfl
      | tail _ hx => exact ih x hx
    · rw [if_neg h] at hx
      cases he : splitLines cs with
      | nil => exact absurd he (splitLines_ne_nil cs)
      | cons l ls =>
        rw [he] at hx
        cases hx with
        | head =>
          have hl : hasNL l = false := ih l (by rw [he]; exact List.mem_cons_self l ls)
          rw [hasNL] at hl ⊢
          rw [List.any_cons, hl]
          simp [h]
        | tail _ hx => exact ih x (by rw [he]; exact List.mem_cons_of_mem l hx)

theorem splitLines_joinLines {X : List (List Char)} (hne : X ≠ [])
    (h : ∀ x ∈ X, hasNL x = false) : splitLines (joinLines X) = X := by
  induction X with
  | nil => exact absurd rfl hne
  | cons a X ih =>
    cases X with
    | nil =>
      rw [joinLines, splitLines_noNL (h a (List.mem_cons_self a []))]
    | cons b Y =>
      rw [joinLines, splitLines_append_newline _ (h a (List.mem_cons_self a _)),
        ih (by simp) (fun x hx => h x (List.mem_cons_of_mem a hx))]

/-! Lemmas about the hunk-header recalculation machinery. -/

theorem digitChar_ne_newline {d : Nat} (h : d < 10) :
    (digitChar d == '\n') = false := by
  interval_cases d <;> decide

theorem natToCharsGo_noNL (fuel : Nat) : ∀ n acc,
    (acc.any (fun c => c == '\n')) = false →
    ((natToCharsGo fuel n acc).any (fun c => c == '\n')) = false := by
  induction fuel with
  | zero =>
    intro n acc h
    rw [natToCharsGo, List.any_cons,
      digitChar_ne_newline (Nat.mod_lt _ (by omega)), h]
    rfl
  | succ fuel ih =>
    intro n acc h
    rw [natToCharsGo]
    by_cases hn : n < 10
    · rw [if_pos hn, List.any_cons, digitChar_ne_newline hn, h]
      rfl
    · rw [if_neg hn]
      exact ih _ _ (by
        rw [List.any_cons, digitChar_ne_newline (Nat.mod_lt _ (by omega)), h]
        rfl)

theorem natToChars_noNL (n : Nat) : hasNL (natToChars n) = false := by
  rw [hasNL, natToChars]
  exact natToCharsGo_noNL n n [] rfl

theorem isDigit_ne_newline {c : Char} (h : c.isDigit = true) :
    (c == '\n') = false := by
  cases hb : (c == '\n') with
  | false => rfl
  | true =>
    rw [eq_of_beq hb] at h
    exact absurd h (by decide)

theorem hasNL_eq_false_of_hasTerm {l : List Char} (h : hasTerm l = false) :
    hasNL l = false := by
  rw [hasTerm] at h
  rw [hasNL]
  simp only [List.any_eq_false] at h ⊢
  intro c hc
  have h2 := h c hc
  rw [isTermChar] at h2
  cases hb : (c == '\n') with
  | false => simp
  | true =>
    rw [hb] at h2
    simp at h2

theorem parseHunkHeader_facts {l : List Char} {ph : HunkHeaderParts}
    (h : parseHunkHeader l = some ph) :
    (∀ c ∈ ph.oldStart, c.isDigit = true) ∧
    (∀ c ∈ ph.newStart, c.isDigit = true) ∧ hasTerm ph.trailing = false := by
  unfold parseHunkHeader at h
  split at h
  · exact absurd h (by simp)
  · split at h
    · exact absurd h (by simp)
    · split at h
      split at h
      · exact absurd h (by simp)
      · split at h
        · exact absurd h (by simp)
        · split at h
          split at h
          · exact absurd h (by simp)
          · split at h
            · exact absurd h (by simp)
            · rw [Option.some_inj] at h
              subst h
              refine ⟨fun c hc => List.mem_takeWhile_imp hc,
                fun c hc => List.mem_takeWhile_imp hc, ?_⟩
              simp_all

theorem adjustLine_noNL {l : List Char} (rest : List (List Char))
    (h : hasNL l = false) : hasNL (adjustLine l rest) = false := by
  unfold adjustLine
  cases hp : parseHunkHeader l with
  | none => exact h
  | some ph =>
    obtain ⟨ho, hn, htm⟩ := parseHunkHeader_facts hp
    have ht := hasNL_eq_false_of_hasTerm htm
    have hnat1 := natToChars_noNL (hunkCounts rest).1
    have hnat2 := natToChars_noNL (hunkCounts rest).2
    rw [hasNL] at hnat1 hnat2 ht ⊢
    have hdo : (ph.oldStart.any fun c => c == '\n') = false := by
      simp only [List.any_eq_false]
      intro c hcm
      have := isDigit_ne_newline (ho c hcm)
      simp_all
    have hdn : (ph.newStart.any fun c => c == '\n') = false := by
      simp only [List.any_eq_false]
      intro c hcm
      have := isDigit_ne_newline (hn c hcm)
      simp_all
    simp +decide [List.any_append, hnat1, hnat2, ht, hdo, hdn]

theorem adjustGo_length (L : List (List Char)) :
    (adjustGo L).length = L.length := by
  induction L with
  | nil => rfl
  | cons l ls ih => rw [adjustGo, List.length_cons, List.length_cons, ih]

theorem adjustGo_noNL (L : List (List Char))
    (h : ∀ l ∈ L, hasNL l = false) :
    ∀ x ∈ adjustGo L, hasNL x = false := by
  induction L with
  | nil => intro x hx; exact absurd hx (by simp [adjustGo])
  | cons l ls ih =>
    intro x hx
    rw [adjustGo] at hx
    cases hx with
    | head => exact adjustLine_noNL ls (h l (List.mem_cons_self l ls))
    | tail _ hx => exact ih (fun y hy => h y (List.mem_cons_of_mem l hy)) x hx

theorem adjustGo_getD (L : List (List Char)) (i : Nat) :
    (adjustGo L).getD i [] = adjustLine (L.getD i []) (L.drop (i + 1)) := by
  induction L generalizing i with
  | nil =>
    have : adjustLine [] [] = [] := rfl
    simp [adjustGo, this]
  | cons l ls ih =>
    cases i with
    | zero => simp [adjustGo]
    | succ n =>
      rw [adjustGo, List.getD_cons_succ, List.getD_cons_succ, ih,
        List.drop_succ_cons]

theorem splitLines_adjustHunkHeaders (t : List Char) :
    splitLines (adjustHunkHeaders t) = adjustGo (splitLines t) := by
  rw [adjustHunkHeaders]
  apply splitLines_joinLines
  · cases he : splitLines t with
    | nil => exact absurd he (splitLines_ne_nil t)
    | cons a L => rw [adjustGo]; simp
  · exact adjustGo_noNL (splitLines t) (mem_splitLines_noNL t)

theorem singleton_isPrefixOf_cons (c d : Char) (t : List Char) :
    [c].isPrefixOf (d :: t) = (c == d) := by
  simp [List.isPrefixOf]

theorem hunkCounts_body (body rest : List (List Char))
    (hb : ∀ l ∈ body, isStopLine l = false)
    (hr : rest = [] ∨ isStopLine (rest.headD []) = true) :
    hunkCounts (body ++ rest) =
      (body.countP isDashLine + body.countP isSpaceLine,
       body.countP isPlusLine + body.countP isSpaceLine) := by
  induction body with
  | nil =>
    rw [List.nil_append]
    cases hr with
    | inl h => rw [h]; rfl
    | inr h =>
      cases rest with
      | nil => rfl
      | cons r rs =>
        rw [List.headD_cons] at h
        rw [hunkCounts, if_pos h]
        simp
  | cons l b ih =>
    have hl := hb l (List.mem_cons_self l b)
    have ih' := ih (fun x hx => hb x (List.mem_cons_of_mem l hx))
    rw [List.cons_append, hunkCounts, hl]
    simp only [Bool.false_eq_true, if_false]
    by_cases hd : isDashLine l = true
    · obtain ⟨u, rfl⟩ : ∃ u, l = '-' :: u := by
        rw [isDashLine] at hd
        exact singleton_isPrefixOf_iff.mp hd
      have hp : isPlusLine ('-' :: u) = false := by
        rw [isPlusLine]
        rw [show ("+".data) = ['+'] from rfl, singleton_isPrefixOf_cons]
        decide
      have hs : isSpaceLine ('-' :: u) = false := by
        rw [isSpaceLine]
        rw [show (" ".data) = [' '] from rfl, singleton_isPrefixOf_cons]
        decide
      rw [if_pos hd, ih']
      simp [List.countP_cons, hd, hp, hs]
      omega
    · by_cases hp : isPlusLine l = true
      · obtain ⟨u, rfl⟩ : ∃ u, l = '+' :: u := by
          rw [isPlusLine] at hp
          exact singleton_isPrefixOf_iff.mp hp
        have hs : isSpaceLine ('+' :: u) = false := by
          rw [isSpaceLine]
          rw [show (" ".data) = [' '] from rfl, singleton_isPrefixOf_cons]
          decide
        rw [if_neg hd, if_pos hp, ih']
        simp [List.countP_cons, hd, hp, hs]
        omega
      · by_cases hs : isSpaceLine l = true
        · rw [if_neg hd, if_neg hp, if_pos hs, ih']
          simp [List.countP_cons, hd, hp, hs]
          constructor
          · omega
          · omega
        · rw [if_neg hd, if_neg hp, if_neg hs, ih']
          simp [List.countP_cons, hd, hp, hs]

theorem getD_append_cons (pre : List (List Char)) (x : List Char)
    (tail : List (List Char)) :
    (pre ++ x :: tail).getD pre.length [] = x := by
  induction pre with
  | nil => rfl
  | cons p ps ih => rw [List.cons_append, List.length_cons, List.getD_cons_succ, ih]

theorem drop_append_cons (pre : List (List Char)) (x : List Char)
    (tail : List (List Char)) :
    (pre ++ x :: tail).drop (pre.length + 1) = tail := by
  induction pre with
  | nil => rfl
  | cons p ps ih => rw [List.cons_append, List.length_cons, List.drop_succ_cons, ih]

/-! Lemmas about the context-space repairer. -/

theorem fixLine_noNL {l : List Char} (h : hasNL l = false) :
    hasNL (fixLine l) = false := by
  rw [fixLine]
  by_cases hc : (!(trim l).isEmpty && !structuralTest l) = true
  · rw [if_pos hc, hasNL, List.any_cons]
    rw [hasNL] at h
    rw [h]
    rfl
  · rw [if_neg hc]
    exact h

theorem splitLines_autoFixSpaces (t : List Char) :
    splitLines (autoFixSpaces t) = (splitLines t).map fixLine := by
  rw [autoFixSpaces]
  apply splitLines_joinLines
  · intro hemp
    rw [List.map_eq_nil_iff] at hemp
    exact absurd hemp (splitLines_ne_nil t)
  · intro x hx
    obtain ⟨y, hy, rfl⟩ := List.mem_map.mp hx
    exact fixLine_noNL (mem_splitLines_noNL t y hy)

theorem getD_map_fixLine (L : List (List Char)) (i : Nat) :
    (L.map fixLine).getD i [] = fixLine (L.getD i []) := by
  induction L generalizing i with
  | nil =>
    cases i <;> exact (rfl : fixLine [] = []).symm
  | cons l ls ih =>
    cases i with
    | zero => rfl
    | succ n =>
      rw [List.map_cons, List.getD_cons_succ, List.getD_cons_succ, ih]

/-! Lemmas about the header-field extractor. -/

theorem cons_isPrefixOf_cons (a : Char) (p : List Char) (b : Char)
    (t : List Char) :
    (a :: p).isPrefixOf (b :: t) = ((a == b) && p.isPrefixOf t) := by
  simp [List.isPrefixOf]

theorem bSlash_not_isPrefixOf {c : Char} (t : List Char)
    (hc : (' ' == c) = false) :
    (" b/".data).isPrefixOf (c :: t) = false := by
  rw [show (" b/".data) = ' ' :: ("b/".data) from rfl, cons_isPrefixOf_cons, hc]
  rfl

theorem splitLastB_eq_none {n : List Char}
    (h : containsSub (" b/".data) n = false) : splitLastB n = none := by
  induction n with
  | nil => rfl
  | cons c cs ih =>
    rw [containsSub_cons, Bool.or_eq_false_iff] at h
    rw [splitLastB, ih h.2, h.1]
    simp

theorem splitLastB_append (o : List Char) {n : List Char}
    (h : containsSub (" b/".data) n = false) :
    splitLastB (o ++ (" b/".data) ++ n) = some (o, n) := by
  induction o with
  | nil =>
    have e : ([] : List Char) ++ (" b/".data) ++ n = ' ' :: 'b' :: '/' :: n := rfl
    rw [e]
    have h3 : splitLastB ('/' :: n) = none := by
      rw [splitLastB, splitLastB_eq_none h, bSlash_not_isPrefixOf n (by decide)]
      simp
    have h2 : splitLastB ('b' :: '/' :: n) = none := by
      rw [splitLastB, h3, bSlash_not_isPrefixOf ('/' :: n) (by decide)]
      simp
    rw [splitLastB, h2]
    have hpref : (" b/".data).isPrefixOf (' ' :: 'b' :: '/' :: n) = true := by
      have : ' ' :: 'b' :: '/' :: n = (" b/".data) ++ n := rfl
      rw [this]
      exact isPrefixOf_append _ _
    rw [hpref]
    simp

  | cons a o' ih =>
    have e : (a :: o') ++ (" b/".data) ++ n = a :: (o' ++ (" b/".data) ++ n) := by
      simp
    rw [e, splitLastB, ih]

/-! Lemmas about digit runs, for the validity classifier. -/

theorem takeWhile_digits_append {d : List Char} {x : Char} (r : List Char)
    (hd : ∀ c ∈ d, c.isDigit = true) (hx : x.isDigit = false) :
    (d ++ x :: r).takeWhile Char.isDigit = d ∧
    (d ++ x :: r).dropWhile Char.isDigit = x :: r := by
  induction d with
  | nil => simp [List.takeWhile_cons, List.dropWhile_cons, hx]
  | cons a d' ih =>
    have ha := hd a (List.mem_cons_self a d')
    have ih' := ih (fun c hc => hd c (List.mem_cons_of_mem a hc))
    constructor
    · rw [List.cons_append, List.takeWhile_cons, ha, ih'.1]
      simp
    · rw [List.cons_append, List.dropWhile_cons, ha, ih'.2]
      simp

theorem tailsFrom_any_of_suffix (u s : List Char) (f : List Char → Bool)
    (h : f s = true) : (tailsFrom (u ++ s)).any f = true := by
  induction u with
  | nil =>
    cases s with
    | nil => simp [tailsFrom, h]
    | cons c cs => simp [tailsFrom, List.any_cons, h]
  | cons a u' ih =>
    rw [List.cons_append, tailsFrom, List.any_cons, ih]
    simp

/-! Lemmas about the header synthesizer. -/

theorem addMissingHeaders_of_guard {u : List Char}
    (hg : ("diff ".data).isPrefixOf (trim u) = true) : addMissingHeaders u = u := by
  simp [addMissingHeaders, hg]

theorem trim_prefix_of_inner (a : Char) (p' v : List Char) (c : Char)
    (ha : isWS a = false) (hc : isWS c = false) :
    (a :: p').isPrefixOf (trim ((a :: p') ++ c :: v)) = true := by
  unfold trim
  rw [List.cons_append, List.dropWhile_cons, ha]
  simp only [Bool.false_eq_true, if_false]
  rw [show (a :: (p' ++ c :: v)).reverse =
      v.reverse ++ c :: (a :: p').reverse from by simp]
  rw [dropWhile_append_eval]
  by_cases hall : v.reverse.all isWS = true
  · rw [if_pos hall, List.dropWhile_cons, hc]
    simp only [Bool.false_eq_true, if_false]
    rw [show (c :: (a :: p').reverse).reverse = (a :: p') ++ [c] from by simp]
    exact isPrefixOf_append _ _
  · rw [if_neg hall, List.reverse_append,
      show (c :: (a :: p').reverse).reverse = (a :: p') ++ [c] from by simp,
      List.append_assoc]
    exact isPrefixOf_append _ _

theorem guard_on_gitHeader (X : List Char) :
    ("diff ".data).isPrefixOf (trim (("diff --git a/".data) ++ X)) = true := by
  have e : ("diff --git a/".data) ++ X =
      ('d' :: ("iff ".data)) ++ ('-' :: (("-git a/".data) ++ X)) := rfl
  rw [e]
  exact trim_prefix_of_inner 'd' ("iff ".data) _ '-' (by decide) (by decide)

theorem addMissingHeaders_branch1 {t : List Char}
    (h1 : ("diff ".data).isPrefixOf (trim t) = false)
    (h2 : containsSub ("--- ".data) t = false)
    (h3 : containsSub ("+++ ".data) t = false) :
    addMissingHeaders t =
      ("diff --git a/".data) ++ ((matchPlusB t).getD ("unknown-file".data)) ++
        (" b/".data) ++ ((matchPlusB t).getD ("unknown-file".data)) ++
        ("\n--- a/".data) ++ ((matchPlusB t).getD ("unknown-file".data)) ++
        ("\n+++ b/".data) ++ ((matchPlusB t).getD ("unknown-file".data)) ++
        ("\n".data) ++ t := by
  unfold addMissingHeaders
  split
  · simp_all
  · simp only []
    split
    · rfl
    · simp_all

theorem addMissingHeaders_branch2 {t : List Char}
    (h1 : ("diff ".data).isPrefixOf (trim t) = false)
    (h2 : containsSub ("--- ".data) t = false)
    (h3 : containsSub ("+++ ".data) t = true) :
    addMissingHeaders t =
      ("diff --git a/".data) ++ ((matchPlusB t).getD ("unknown-file".data)) ++
        (" b/".data) ++ ((matchPlusB t).getD ("unknown-file".data)) ++
        ("\n--- a/".data) ++ ((matchPlusB t).getD ("unknown-file".data)) ++
        ("\n".data) ++ t := by
  unfold addMissingHeaders
  split
  · simp_all
  · simp only []
    split
    · simp_all
    · split
      · rfl
      · simp_all

theorem addMissingHeaders_keep {t : List Char}
    (h2 : containsSub ("--- ".data) t = true) :
    addMissingHeaders t = t := by
  unfold addMissingHeaders
  split
  · rfl
  · simp only []
    split
    · simp_all
    · split
      · simp_all
      · rfl

/-- C8: the presence checks of `addMissingHeaders` are substring tests over
the whole text, not per-line tests: any input that does not start (after
trimming) with `diff ` but contains `--- ` anywhere — even inside a body
line — is returned unchanged, with no preamble synthesized. -/
theorem addMissingHeaders_substring_check (t : List Char)
    (h1 : ("diff ".data).isPrefixOf (trim t) = false)
    (h2 : containsSub ("--- ".data) t = true) :
    addMissingHeaders t = t :=
  addMissingHeaders_keep h2

theorem addMissingHeaders_substring_check_witness :
    addMissingHeaders ("x --- y".data) = ("x --- y".data) :=
  addMissingHeaders_substring_check ("x --- y".data) (by decide) (by decide)

/-- C9: the look-ahead of `adjustHunkHeaders` classifies lines solely by
their first character: a `--- a/f` file marker sitting between a hunk
header and the next `@@ ` line is counted as a deletion and a `+++ b/f`
marker as an addition, so the 9,9 counts are rewritten to 1,1. -/
theorem adjustHunkHeaders_counts_file_markers :
    adjustHunkHeaders
        ("@@ -1,9 +1,9 @@\n--- a/f\n+++ b/f\n@@ -2,0 +2,0 @@".data) =
      ("@@ -1,1 +1,1 @@\n--- a/f\n+++ b/f\n@@ -2,0 +2,0 @@".data) := by
  decide

/-- C5: the header synthesizer is idempotent — applying
`addMissingHeaders` to its own output returns that output unchanged. -/
theorem addMissingHeaders_idempotent (t : List Char) :
    addMissingHeaders (addMissingHeaders t) = addMissingHeaders t := by
  by_cases h1 : ("diff ".data).isPrefixOf (trim t) = true
  · have e := addMissingHeaders_of_guard h1
    rw [e]
    exact e
  · have h1' : ("diff ".data).isPrefixOf (trim t) = false := by
      cases h : ("diff ".data).isPrefixOf (trim t) with
      | false => rfl
      | true => exact absurd h h1
    by_cases h2 : containsSub ("--- ".data) t = true
    · have e := addMissingHeaders_keep h2
      rw [e]
      exact e
    · have h2' : containsSub ("--- ".data) t = false := by
        cases h : containsSub ("--- ".data) t with
        | false => rfl
        | true => exact absurd h h2
      by_cases h3 : containsSub ("+++ ".data) t = true
      · have hg : ("diff ".data).isPrefixOf (trim (addMissingHeaders t)) = true := by
          rw [addMissingHeaders_branch2 h1' h2' h3]
          simp only [List.append_assoc]
          exact guard_on_gitHeader _
        exact addMissingHeaders_of_guard hg
      · have h3' : containsSub ("+++ ".data) t = false := by
          cases h : containsSub ("+++ ".data) t with
          | false => rfl
          | true => exact absurd h h3
        have hg : ("diff ".data).isPrefixOf (trim (addMissingHeaders t)) = true := by
          rw [addMissingHeaders_branch1 h1' h2' h3']
          simp only [List.append_assoc]
          exact guard_on_gitHeader _
        exact addMissingHeaders_of_guard hg

/-- C1 counterexample: on the input `hello` (no `diff ` start, no `--- `
or `+++ ` anywhere) the synthesized third preamble line is
`+++ b/unknown-file`, not `+++ a/unknown-file` as the claim states. -/
theorem addMissingHeaders_claimed_preamble_false :
    ("diff ".data).isPrefixOf (trim ("hello".data)) = false ∧
    containsSub ("--- ".data) ("hello".data) = false ∧
    containsSub ("+++ ".data) ("hello".data) = false ∧
    addMissingHeaders ("hello".data) ≠
      ("diff --git a/unknown-file b/unknown-file\n--- a/unknown-file\n+++ a/unknown-file\nhello".data) := by
  decide

/-- C1 (amended): for every input that does not (after trimming) start
with `diff ` and contains neither `--- ` nor `+++ ` anywhere, the header
synthesizer prepends exactly the preamble `diff --git a/unknown-file
b/unknown-file`, `--- a/unknown-file`, `+++ b/unknown-file` followed by
the original text (no `+++ b/<path>` occurrence exists, so the path falls
back to `unknown-file`). -/
theorem addMissingHeaders_synthesizes_full_preamble (t : List Char)
    (h1 : ("diff ".data).isPrefixOf (trim t) = false)
    (h2 : containsSub ("--- ".data) t = false)
    (h3 : containsSub ("+++ ".data) t = false) :
    addMissingHeaders t =
      ("diff --git a/unknown-file b/unknown-file\n--- a/unknown-file\n+++ b/unknown-file\n".data) ++ t := by
  rw [addMissingHeaders_branch1 h1 h2 h3, matchPlusB_eq_none h3]
  rfl

theorem addMissingHeaders_synthesizes_full_preamble_witness :
    addMissingHeaders ("hello".data) =
      ("diff --git a/unknown-file b/unknown-file\n--- a/unknown-file\n+++ b/unknown-file\nhello".data) := by
  have h := addMissingHeaders_synthesizes_full_preamble ("hello".data)
    (by decide) (by decide) (by decide)
  rw [h]
  decide

/-- C2: for every parsed hunk header whose body (up to the next `@@ ` or
`diff --git` line, or the end of the text) interleaves deletion, context
and addition lines, `adjustHunkHeaders` rewrites exactly that line with
`oldCount = deletions + contexts` and `newCount = additions + contexts`,
keeping `oldStart`, `newStart` and the trailing suffix byte-identical;
an empty body yields counts `0,0`. -/
theorem adjustHunkHeaders_recalculates (t : List Char)
    (pre body rest : List (List Char)) (hdr : List Char) (ph : HunkHeaderParts)
    (hsplit : splitLines t = pre ++ hdr :: (body ++ rest))
    (hparse : parseHunkHeader hdr = some ph)
    (hbody : ∀ l ∈ body, isStopLine l = false)
    (hrest : rest = [] ∨ isStopLine (rest.headD []) = true) :
    splitLines (adjustHunkHeaders t) = adjustGo (splitLines t) ∧
    (splitLines (adjustHunkHeaders t)).getD pre.length [] =
      ("@@ -".data) ++ ph.oldStart ++ [','] ++
        natToChars (body.countP isDashLine + body.countP isSpaceLine) ++
        (" +".data) ++ ph.newStart ++ [','] ++
        natToChars (body.countP isPlusLine + body.countP isSpaceLine) ++
        (" @@".data) ++ ph.trailing := by
  refine ⟨splitLines_adjustHunkHeaders t, ?_⟩
  rw [splitLines_adjustHunkHeaders t, hsplit, adjustGo_getD, getD_append_cons,
    drop_append_cons]
  simp only [adjustLine, hparse, hunkCounts_body body rest hbody hrest]

theorem adjustHunkHeaders_recalculates_witness :
    (splitLines (adjustHunkHeaders ("@@ -1,5 +1,2 @@\n ctx\n-del\n+add".data))).getD 0 [] =
      ("@@ -1,2 +1,2 @@".data) := by
  have h := adjustHunkHeaders_recalculates
    ("@@ -1,5 +1,2 @@\n ctx\n-del\n+add".data)
    [] [(" ctx".data), ("-del".data), ("+add".data)] []
    ("@@ -1,5 +1,2 @@".data)
    ⟨("1".data), some ("5".data), ("1".data), some ("2".data), []⟩
    (by decide) (by decide) (by decide) (Or.inl rfl)
  exact h.2.trans (by decide)

/-- C7: every stage is a total function (the pipeline `normalizeDiff` is
the composition of its three stages), and `adjustHunkHeaders` degrades
gracefully: it keeps the number of lines and passes any line that fails
the hunk-header grammar through unmodified. -/
theorem engine_total_passthrough (t : List Char) (i : Nat) :
    normalizeDiff t = addMissingHeaders (autoFixSpaces (normalizeLineEndings t)) ∧
    (splitLines (adjustHunkHeaders t)).length = (splitLines t).length ∧
    (parseHunkHeader ((splitLines t).getD i []) = none →
      (splitLines (adjustHunkHeaders t)).getD i [] = (splitLines t).getD i []) := by
  refine ⟨rfl, ?_, ?_⟩
  · rw [splitLines_adjustHunkHeaders, adjustGo_length]
  · intro hp
    rw [splitLines_adjustHunkHeaders, adjustGo_getD]
    simp only [adjustLine, hp]

theorem engine_total_passthrough_witness :
    (splitLines (adjustHunkHeaders ("@@ -1,2 +3,4 @@\r\nx".data))).getD 0 [] =
      ("@@ -1,2 +3,4 @@\r".data) := by
  have h := engine_total_passthrough ("@@ -1,2 +3,4 @@\r\nx".data) 0
  exact (h.2.2 (by decide)).trans (by decide)

/-- C10: a line consisting solely of whitespace characters passes through
`autoFixSpaces` unchanged, receiving no prepended marker space; the line
count is preserved. -/
theorem autoFixSpaces_ws_only_lines (t : List Char) (i : Nat) :
    (splitLines (autoFixSpaces t)).length = (splitLines t).length ∧
    (((splitLines t).getD i []).all isWS = true →
      (splitLines (autoFixSpaces t)).getD i [] = (splitLines t).getD i []) := by
  constructor
  · rw [splitLines_autoFixSpaces, List.length_map]
  · intro hws
    rw [splitLines_autoFixSpaces, getD_map_fixLine, fixLine]
    have e : trim ((splitLines t).getD i []) = [] :=
      trim_eq_nil_of_all_ws (fun c hc => List.all_eq_true.mp hws c hc)
    rw [e]
    simp

theorem autoFixSpaces_ws_only_lines_witness :
    (splitLines (autoFixSpaces ("a\n\t\nb".data))).getD 1 [] = ("\t".data) := by
  have h := autoFixSpaces_ws_only_lines ("a\n\t\nb".data) 1
  exact (h.2 (by decide)).trans (by decide)

/-- C3 counterexample: the tab-only line is non-empty and starts with no
recognized structural prefix, yet `autoFixSpaces` leaves it unchanged
instead of prepending a space as the claim demands for every other
non-empty line. -/
theorem autoFixSpaces_claimed_space_false :
    ("\t".data) ≠ [] ∧ structuralTest ("\t".data) = false ∧
    autoFixSpaces ("\t".data) = ("\t".data) ∧
    autoFixSpaces ("\t".data) ≠ ' ' :: ("\t".data) := by
  decide

/-- C3 (amended): `autoFixSpaces` maps each line independently (line order
and count preserved); a line starting with `+`, `-`, space, `@` or one of
the recognized structural prefixes is unchanged, a line that trims to
empty (empty or whitespace-only) is unchanged, and every other line gains
exactly one leading space. -/
theorem autoFixSpaces_line_behavior (t l : List Char) :
    splitLines (autoFixSpaces t) = (splitLines t).map fixLine ∧
    (structuralTest l = true → fixLine l = l) ∧
    ((trim l).isEmpty = true → fixLine l = l) ∧
    (structuralTest l = false → (trim l).isEmpty = false → fixLine l = ' ' :: l) := by
  refine ⟨splitLines_autoFixSpaces t, ?_, ?_, ?_⟩
  · intro h
    rw [fixLine, h]
    simp
  · intro h
    rw [fixLine, h]
    simp
  · intro h1 h2
    rw [fixLine, h1, h2]
    simp

theorem autoFixSpaces_line_behavior_witness :
    fixLine ("foo()".data) = ' ' :: ("foo()".data) := by
  have h := autoFixSpaces_line_behavior [] ("foo()".data)
  exact h.2.2.2 (by decide) (by decide)

theorem dropLit_append (p X : List Char) : dropLit p (p ++ X) = some X := by
  rw [dropLit, isPrefixOf_append]
  simp [List.drop_left]

theorem isEmpty_false_of_ne {l : List Char} (h : l ≠ []) : l.isEmpty = false := by
  cases l with
  | nil => exact absurd rfl h
  | cons a t => rfl

/-- C6: the header-field extractor returns the two sanitized paths exactly
when the line matches the grammar `diff --git a/<old> b/<new>` (split at
the last ` b/`, as the greedy regex groups force), and the undefined pair
on every other input — no other header form is recognized. -/
theorem extractFileNamesFromHeader_grammar (san : List Char → List Char)
    (l o n : List Char) :
    (l = ("diff --git a/".data) ++ o ++ (" b/".data) ++ n →
     hasTerm o = false → hasTerm n = false →
     containsSub (" b/".data) n = false →
     extractFileNamesFromHeader san l = (some (san o), some (san n))) ∧
    (gitHeaderGrammar l = false →
     extractFileNamesFromHeader san l = (none, none)) := by
  constructor
  · rintro rfl ho hn hnb
    have hNL : hasTerm (("diff --git a/".data) ++ o ++ (" b/".data) ++ n) = false := by
      rw [hasTerm] at ho hn ⊢
      simp only [List.any_append, Bool.or_eq_false_iff]
      exact ⟨⟨⟨by decide, ho⟩, by decide⟩, hn⟩
    rw [show ("diff --git a/".data) ++ o ++ (" b/".data) ++ n =
        ("diff --git a/".data) ++ (o ++ (" b/".data) ++ n) from by
      simp [List.append_assoc]] at hNL ⊢
    simp only [extractFileNamesFromHeader, hNL, Bool.false_eq_true, if_false,
      dropLit_append, splitLastB_append o hnb]
  · intro hg
    rw [gitHeaderGrammar] at hg
    by_cases hNL : hasTerm l = true
    · simp [extractFileNamesFromHeader, hNL]
    · have hNL' : hasTerm l = false := by
        cases h : hasTerm l with
        | false => rfl
        | true => exact absurd h hNL
      by_cases hpre : ("diff --git a/".data).isPrefixOf l = true
      · obtain ⟨s, rfl⟩ := isPrefixOf_iff_append.mp hpre
        simp only [hNL', hpre, Bool.not_false, Bool.true_and] at hg
        rw [List.drop_left' (by decide)] at hg
        simp only [extractFileNamesFromHeader, hNL', Bool.false_eq_true,
          if_false, dropLit_append, splitLastB_eq_none hg]
      · have hpre' : ("diff --git a/".data).isPrefixOf l = false := by
          cases h : ("diff --git a/".data).isPrefixOf l with
          | false => rfl
          | true => exact absurd h hpre
        simp only [extractFileNamesFromHeader, hNL', Bool.false_eq_true,
          if_false, dropLit, hpre']

theorem extractFileNamesFromHeader_grammar_witness :
    extractFileNamesFromHeader id ("diff --git a/x.txt b/y.txt".data) =
      (some ("x.txt".data), some ("y.txt".data)) := by
  have h := extractFileNamesFromHeader_grammar id
    ("diff --git a/x.txt b/y.txt".data) ("x.txt".data) ("y.txt".data)
  exact h.1 (by decide) (by decide) (by decide) (by decide)

theorem strictHunkAt_concrete (d1 d2 d3 d4 v : List Char)
    (h1 : d1 ≠ []) (h2 : d2 ≠ []) (h3 : d3 ≠ []) (h4 : d4 ≠ [])
    (hd1 : ∀ c ∈ d1, c.isDigit = true) (hd2 : ∀ c ∈ d2, c.isDigit = true)
    (hd3 : ∀ c ∈ d3, c.isDigit = true) (hd4 : ∀ c ∈ d4, c.isDigit = true) :
    strictHunkAt (("@@ -".data) ++
      (d1 ++ (',' :: (d2 ++ ((" +".data) ++
        (d3 ++ (',' :: (d4 ++ ((" @@".data) ++ v))))))))) = true := by
  simp only [strictHunkAt, List.cons_append, List.nil_append]
  rw [show ('@' :: '@' :: ' ' :: '-' :: (d1 ++ ',' :: (d2 ++ ' ' :: '+' ::
        (d3 ++ ',' :: (d4 ++ ' ' :: '@' :: '@' :: v)))) : List Char) =
      (['@', '@', ' ', '-'] ++ (d1 ++ ',' :: (d2 ++ ' ' :: '+' ::
        (d3 ++ ',' :: (d4 ++ ' ' :: '@' :: '@' :: v))))) from rfl,
    dropLit_append]
  simp only []
  rw [(takeWhile_digits_append _ hd1 (by decide)).1,
    (takeWhile_digits_append _ hd1 (by decide)).2,
    isEmpty_false_of_ne h1]
  simp only [Bool.false_eq_true, if_false]
  rw [(takeWhile_digits_append _ hd2 (by decide)).1,
    (takeWhile_digits_append _ hd2 (by decide)).2,
    isEmpty_false_of_ne h2]
  simp only [Bool.false_eq_true, if_false]
  rw [show (' ' :: '+' :: (d3 ++ ',' :: (d4 ++ ' ' :: '@' :: '@' :: v)) : List Char) =
      ([' ', '+'] ++ (d3 ++ ',' :: (d4 ++ ' ' :: '@' :: '@' :: v))) from rfl,
    dropLit_append]
  simp only []
  rw [(takeWhile_digits_append _ hd3 (by decide)).1,
    (takeWhile_digits_append _ hd3 (by decide)).2,
    isEmpty_false_of_ne h3]
  simp only [Bool.false_eq_true, if_false]
  rw [(takeWhile_digits_append _ hd4 (by decide)).1,
    (takeWhile_digits_append _ hd4 (by decide)).2,
    isEmpty_false_of_ne h4]
  simp only [Bool.false_eq_true, if_false]
  rw [show (' ' :: '@' :: '@' :: v : List Char) = ([' ', '@', '@'] ++ v) from rfl]
  exact isPrefixOf_append _ _

/-- C4: any text containing a substring in the strict hunk-header grammar
`@@ -<digits>,<digits> +<digits>,<digits> @@` is classified a valid diff;
any text with fewer than two lines beginning (after trimming) with `+` or
`-`, none of the three diff markers, and no strict hunk header is
classified invalid; text that trims to nothing is always invalid. -/
theorem isUnifiedDiff_classification (t u v d1 d2 d3 d4 : List Char) :
    (t = u ++ ("@@ -".data) ++ d1 ++ [','] ++ d2 ++ (" +".data) ++ d3 ++
        [','] ++ d4 ++ (" @@".data) ++ v →
     d1 ≠ [] → d2 ≠ [] → d3 ≠ [] → d4 ≠ [] →
     (∀ c ∈ d1, c.isDigit = true) → (∀ c ∈ d2, c.isDigit = true) →
     (∀ c ∈ d3, c.isDigit = true) → (∀ c ∈ d4, c.isDigit = true) →
     isUnifiedDiff t = true) ∧
    (plusMinusCount t < 2 →
     containsSub ("diff --git".data) t = false →
     containsSub ("--- ".data) t = false →
     containsSub ("+++ ".data) t = false →
     hasStrictHunkHeader t = false →
     isUnifiedDiff t = false) ∧
    ((trim t).isEmpty = true → isUnifiedDiff t = false) := by
  refine ⟨?_, ?_, ?_⟩
  · rintro rfl h1 h2 h3 h4 hd1 hd2 hd3 hd4
    have h0 : '@' ∈ ("@@ -".data) := by decide
    have hmem : '@' ∈ u ++ ("@@ -".data) ++ d1 ++ [','] ++ d2 ++
        (" +".data) ++ d3 ++ [','] ++ d4 ++ (" @@".data) ++ v := by
      simp only [List.mem_append]
      tauto
    have htrim := trim_ne_nil hmem (by decide)
    have hstrict : hasStrictHunkHeader (u ++ ("@@ -".data) ++ d1 ++ [','] ++
        d2 ++ (" +".data) ++ d3 ++ [','] ++ d4 ++ (" @@".data) ++ v) = true := by
      rw [hasStrictHunkHeader,
        show u ++ ("@@ -".data) ++ d1 ++ [','] ++ d2 ++ (" +".data) ++ d3 ++
            [','] ++ d4 ++ (" @@".data) ++ v =
          u ++ (("@@ -".data) ++ (d1 ++ (',' :: (d2 ++ ((" +".data) ++
            (d3 ++ (',' :: (d4 ++ ((" @@".data) ++ v))))))))) from by
          simp [List.append_assoc]]
      exact tailsFrom_any_of_suffix u _ _
        (strictHunkAt_concrete d1 d2 d3 d4 v h1 h2 h3 h4 hd1 hd2 hd3 hd4)
    unfold isUnifiedDiff
    rw [isEmpty_false_of_ne (List.ne_nil_of_mem hmem), isEmpty_false_of_ne htrim,
      hstrict]
    simp only [Bool.or_false, Bool.false_or, Bool.false_eq_true, if_false,
      Bool.or_true, Bool.true_or]
  · intro hcount hm1 hm2 hm3 hstrict
    by_cases hblank : (t.isEmpty || (trim t).isEmpty) = true
    · simp [isUnifiedDiff, hblank]
    · have hblank' : (t.isEmpty || (trim t).isEmpty) = false := by
        cases h : (t.isEmpty || (trim t).isEmpty) with
        | false => rfl
        | true => exact absurd h hblank
      have hc2 : decide (2 ≤ plusMinusCount t) = false := by
        simp only [decide_eq_false_iff_not]
        omega
      simp [isUnifiedDiff, hblank', hm1, hm2, hm3, hstrict, hc2]
  · intro h
    simp [isUnifiedDiff, h]

theorem isUnifiedDiff_classification_witness :
    isUnifiedDiff ("@@ -1,2 +3,4 @@".data) = true := by
  have h := isUnifiedDiff_classification ("@@ -1,2 +3,4 @@".data) [] []
    ("1".data) ("2".data) ("3".data) ("4".data)
  exact h.1 (by decide) (by decide) (by decide) (by decide) (by decide)
    (by decide) (by decide) (by decide) (by decide)

end PatchPilot
